import Mathlib

set_option maxRecDepth 10000

/-!
# Verification of the PAK/WAD graphics extractor

A shallow embedding of `scripts/extract-wad.py`: the PAK outer-archive
reader (`read_pak`), the palette loader (`read_palette`), the WAD2
nested-container reader (`read_wad`), the QPIC indexed-bitmap decoder
(`qpic_to_image`) and the orchestration loop of `main`, together with
theorems about them.

Byte strings are modelled as `List Nat` (each element a byte value);
Python slices, which silently truncate at the end of the buffer, are
modelled by `listSlice`; `struct.unpack` failures on short buffers are
modelled by explicit length checks.
-/

deriving instance DecidableEq for Except

/-- Python slice `data[start : start + len]`: truncates silently at the
end of the buffer. -/
def listSlice (data : List Nat) (start len : Nat) : List Nat :=
  (data.drop start).take len

/-- Byte at index `i` (0 when out of range; used only where the source
guarantees the index is in range). -/
def byteAt (data : List Nat) (i : Nat) : Nat := data.getD i 0

/-- Little-endian 32-bit value at offset `off`, as read by
`struct.unpack("<I", ...)`. -/
def le32At (data : List Nat) (off : Nat) : Nat :=
  byteAt data off + 256 * byteAt data (off+1) + 65536 * byteAt data (off+2) +
    16777216 * byteAt data (off+3)

/-- Signed 8-bit reinterpretation of a byte, as read by `struct` format
`"b"`. -/
def toSigned8 (b : Nat) : Int :=
  if b < 128 then (b : Int) else (b : Int) - 256

/-- `raw.split(b"\x00", 1)[0].decode("ascii", errors="replace").lower()`:
bytes up to the first NUL; bytes ≥ 0x80 become U+FFFD; ASCII uppercase is
lowercased. -/
def decodeName (raw : List Nat) : String :=
  String.mk (((raw.takeWhile (fun b => b ≠ 0)).map
    (fun b => if b < 128 then Char.ofNat b else Char.ofNat 0xFFFD)).map Char.toLower)

/-- Python `dict` assignment `d[k] = v`: replaces the value in place if
the key is present, otherwise appends the pair. -/
def dictInsert {α : Type} (k : String) (v : α) : List (String × α) → List (String × α)
  | [] => [(k, v)]
  | (k₀, v₀) :: rest => if k₀ = k then (k, v) :: rest else (k₀, v₀) :: dictInsert k v rest

/-- `b"PACK"`. -/
def pakMagic : List Nat := [80, 65, 67, 75]

/-- `b"WAD2"`. -/
def wadMagic : List Nat := [87, 65, 68, 50]

inductive PakError where
  | badMagic
  | truncatedHeader
  | truncatedDirectory
  deriving DecidableEq, Repr

/-- The directory loop of `read_pak`: `k` records remain, the file
pointer is at `pos`, `acc` is the entries dict built so far.  Each
iteration reads 56 name bytes (`f.read(56)`, silently truncated at
EOF), then 8 bytes unpacked as `"<II"` (a `struct.error` if fewer than
8 bytes remain), then reads the payload at `offset` (truncating at EOF)
and restores the directory position. -/
def pakLoop (data : List Nat) : Nat → Nat → List (String × List Nat) →
    Except PakError (List (String × List Nat))
  | 0, _, acc => .ok acc
  | k+1, pos, acc =>
    let pos₁ := min (pos + 56) data.length
    if pos₁ + 8 ≤ data.length then
      pakLoop data k (pos₁ + 8)
        (dictInsert (decodeName (listSlice data pos 56))
          (listSlice data (le32At data pos₁) (le32At data (pos₁ + 4))) acc)
    else .error .truncatedDirectory

/-- `read_pak`: magic check, header `(dir_offset, dir_size)` at offsets
4 and 8, then `dir_size // 64` directory records starting at
`dir_offset`. -/
def readPak (data : List Nat) : Except PakError (List (String × List Nat)) :=
  if listSlice data 0 4 ≠ pakMagic then .error .badMagic
  else if 12 ≤ data.length then
    pakLoop data (le32At data 8 / 64) (le32At data 4) []
  else .error .truncatedHeader

abbrev RGBA := Nat × Nat × Nat × Nat

inductive PalError where
  | tooSmall
  deriving DecidableEq, Repr

/-- `read_palette`: requires at least 768 bytes; entry `i` is the RGB
triplet at `i*3` with synthesized alpha (0 at index 255, else 255). -/
def readPalette (data : List Nat) : Except PalError (List RGBA) :=
  if data.length < 768 then .error .tooSmall
  else .ok ((List.range 256).map (fun i =>
    (byteAt data (i*3), byteAt data (i*3+1), byteAt data (i*3+2),
      if i = 255 then 0 else 255)))

/-- One 32-byte WAD2 directory record, as unpacked by
`struct.unpack_from("<IIIBb", data, entry_offset)` plus the 16-byte name
field at record offset 16.  Note `"B"` (lump type) is unsigned while
`"b"` (compression) is signed. -/
structure WadRecord where
  lumpOffset : Nat
  diskSize : Nat
  fullSize : Nat
  lumpType : Int
  compression : Int
  nameRaw : List Nat
  deriving DecidableEq, Repr

/-- Unpack one WAD2 directory record at `eo`; `struct.unpack_from`
fails when fewer than 14 bytes are available, while the name slice
truncates silently. -/
def parseWadRecord (data : List Nat) (eo : Nat) : Option WadRecord :=
  if eo + 14 ≤ data.length then
    some { lumpOffset := le32At data eo
           diskSize := le32At data (eo+4)
           fullSize := le32At data (eo+8)
           lumpType := (byteAt data (eo+12) : Int)
           compression := toSigned8 (byteAt data (eo+13))
           nameRaw := listSlice data (eo+16) 16 }
  else none

inductive WadError where
  | badMagic
  | truncatedHeader
  | truncatedDirectory
  deriving DecidableEq, Repr

/-- The directory loop of `read_wad`: `k` records remain, the next
record starts at `eo`; each stores `(lump_type, data[lump_offset :
lump_offset + disk_size])` keyed by the decoded name. -/
def wadLoop (data : List Nat) : Nat → Nat → List (String × Int × List Nat) →
    Except WadError (List (String × Int × List Nat))
  | 0, _, acc => .ok acc
  | k+1, eo, acc =>
    match parseWadRecord data eo with
    | some r =>
      wadLoop data k (eo + 32)
        (dictInsert (decodeName r.nameRaw)
          (r.lumpType, listSlice data r.lumpOffset r.diskSize) acc)
    | none => .error .truncatedDirectory

/-- `read_wad`: magic check, header `(num_lumps, dir_offset)` unpacked
at offset 4 (a `struct.error` if the buffer is shorter than 12 bytes),
then `num_lumps` records of 32 bytes from `dir_offset`. -/
def readWad (data : List Nat) : Except WadError (List (String × Int × List Nat)) :=
  if listSlice data 0 4 ≠ wadMagic then .error .badMagic
  else if 12 ≤ data.length then
    wadLoop data (le32At data 4) (le32At data 8) []
  else .error .truncatedHeader

structure QImage where
  width : Nat
  height : Nat
  pixels : List RGBA
  deriving DecidableEq, Repr

inductive QpicError where
  | headerTruncated
  | truncated
  | lookupFailed
  deriving DecidableEq, Repr

/-- The list comprehension `[palette[b] for b in pixels]`: `none` models
the `IndexError` raised when some index is out of range of the palette
list. -/
def lookupPixels (palette : List RGBA) : List Nat → Option (List RGBA)
  | [] => some []
  | b :: rest =>
    match palette[b]?, lookupPixels palette rest with
    | some c, some cs => some (c :: cs)
    | _, _ => none

/-- `qpic_to_image`: width and height as `"<II"` at offset 0 (a
`struct.error` on fewer than 8 bytes), the pixel slice
`data[8 : 8 + width*height]`, the truncation check, and the per-pixel
palette lookup. -/
def qpicToImage (data : List Nat) (palette : List RGBA) : Except QpicError QImage :=
  if 8 ≤ data.length then
    let w := le32At data 0
    let h := le32At data 4
    let pixels := listSlice data 8 (w * h)
    if pixels.length < w * h then .error .truncated
    else
      match lookupPixels palette pixels with
      | some colors => .ok ⟨w, h, colors⟩
      | none => .error .lookupFailed
  else .error .headerTruncated

/-- `TYP_QPIC = 0x42`. -/
def TYP_QPIC : Int := 0x42

structure RunResult where
  written : Nat
  skipped : Nat
  outputs : List (String × QImage)
  deriving DecidableEq, Repr

/-- The record loop of `main`: non-QPIC records are skipped without a
decode attempt; a decode failure is caught, counted as skipped, and the
loop continues; a success appends `<name>.png` to the outputs. -/
def processLumps (palette : List RGBA) : List (String × Int × List Nat) → RunResult
  | [] => ⟨0, 0, []⟩
  | (name, lumpType, data) :: rest =>
    let r := processLumps palette rest
    if lumpType ≠ TYP_QPIC then ⟨r.written, r.skipped + 1, r.outputs⟩
    else
      match qpicToImage data palette with
      | .ok img => ⟨r.written + 1, r.skipped, (name ++ ".png", img) :: r.outputs⟩
      | .error _ => ⟨r.written, r.skipped + 1, r.outputs⟩

/-- Lexicographic order on code-point lists, the order Python string
comparison uses. -/
def lexLe : List Nat → List Nat → Bool
  | [], _ => true
  | _ :: _, [] => false
  | a :: as, b :: bs => if a < b then true else if b < a then false else lexLe as bs

/-- Python `<=` on strings: code-point lexicographic. -/
def strLe (a b : String) : Bool := lexLe (a.data.map Char.toNat) (b.data.map Char.toNat)

/-- `sorted(lumps.items())`: since dict keys are distinct the sort is
determined by the name component (a stable insertion sort realises it). -/
def sortByName {α : Type} (l : List (String × α)) : List (String × α) :=
  l.insertionSort (fun x y => strLe x.1 y.1 = true)

inductive MainError where
  | pak (e : PakError)
  | missingPalette
  | palette (e : PalError)
  | missingWad
  | wad (e : WadError)
  deriving DecidableEq, Repr

/-- The orchestration of `main` up to the counts and the list of files
written: read the PAK, require `gfx/palette.lmp` and `gfx.wad`, parse
both, and run the record loop over the name-sorted lumps. -/
def mainRun (pakBytes : List Nat) : Except MainError RunResult :=
  match readPak pakBytes with
  | .error e => .error (.pak e)
  | .ok entries =>
    match List.lookup "gfx/palette.lmp" entries with
    | none => .error .missingPalette
    | some palData =>
      match readPalette palData with
      | .error e => .error (.palette e)
      | .ok pal =>
        match List.lookup "gfx.wad" entries with
        | none => .error .missingWad
        | some wadData =>
          match readWad wadData with
          | .error e => .error (.wad e)
          | .ok lumps => .ok (processLumps pal (sortByName lumps))

/-- Decoded name of the `i`-th 64-byte directory record. -/
def pakRecName (data : List Nat) (dirOff i : Nat) : String :=
  decodeName (listSlice data (dirOff + 64*i) 56)

/-- `offset` field of the `i`-th directory record. -/
def pakRecOffset (data : List Nat) (dirOff i : Nat) : Nat :=
  le32At data (dirOff + 64*i + 56)

/-- `size` field of the `i`-th directory record. -/
def pakRecSize (data : List Nat) (dirOff i : Nat) : Nat :=
  le32At data (dirOff + 64*i + 60)

/-- Payload read for the `i`-th directory record. -/
def pakRecPayload (data : List Nat) (dirOff i : Nat) : List Nat :=
  listSlice data (pakRecOffset data dirOff i) (pakRecSize data dirOff i)

/-- The pure content of the directory loop once no read can fail. -/
def pakFold (data : List Nat) : Nat → Nat → List (String × List Nat) →
    List (String × List Nat)
  | 0, _, acc => acc
  | k+1, pos, acc =>
    pakFold data k (pos + 64)
      (dictInsert (decodeName (listSlice data pos 56))
        (listSlice data (le32At data (pos + 56)) (le32At data (pos + 60))) acc)

/-- The payload of the last directory record among the first `k` whose
decoded name is `s` (directory order: later records win). -/
def pakLastPayload (data : List Nat) (dirOff : Nat) (s : String) : Nat → Option (List Nat)
  | 0 => none
  | k+1 =>
    if pakRecName data dirOff k = s then some (pakRecPayload data dirOff k)
    else pakLastPayload data dirOff s k

/-- A concrete 142-byte PAK archive: two directory records both named
`a`, with payloads `[7]` and `[9]` (the later record must win). -/
def pakExample : List Nat :=
  pakMagic ++ [14, 0, 0, 0] ++ [128, 0, 0, 0] ++ [7, 9] ++
    ([97] ++ List.replicate 55 0 ++ [12, 0, 0, 0] ++ [1, 0, 0, 0]) ++
    ([97] ++ List.replicate 55 0 ++ [13, 0, 0, 0] ++ [1, 0, 0, 0])

/-- A syntactically valid 12-byte archive whose header declares a
directory size of 1 (not a multiple of 64). -/
def pakOddSize : List Nat := pakMagic ++ [12, 0, 0, 0] ++ [1, 0, 0, 0]

/-- A 77-byte archive with directory size 65: one full record (named
`a`, offset 0, size 4) plus a stray trailing byte. -/
def pakOddSize65 : List Nat :=
  pakMagic ++ [12, 0, 0, 0] ++ [65, 0, 0, 0] ++
    ([97] ++ List.replicate 55 0 ++ [0, 0, 0, 0] ++ [4, 0, 0, 0]) ++ [0]

/-- A 768-byte colour table blob with every byte equal to 3. -/
def palBytes : List Nat := List.replicate 768 3

/-- The 2×1 bitmap record of the claim: width 2, height 1, pixel
indices 0 and 255. -/
def qpicExample : List Nat := [2, 0, 0, 0, 1, 0, 0, 0, 0, 255]

/-- The colour table of the claim: entry 0 is opaque red, entry 255 is
transparent black, the rest opaque black. -/
def palExample : List RGBA :=
  (255, 0, 0, 255) :: List.replicate 254 (0, 0, 0, 255) ++ [(0, 0, 0, 0)]

/-- A truncated bitmap record: it declares 1×2 pixels but carries no
pixel bytes. -/
def qpicTruncated : List Nat := [1, 0, 0, 0, 2, 0, 0, 0]

/-- `lump_offset` field of the `i`-th 32-byte WAD2 directory record. -/
def wadRecOffset (data : List Nat) (dirOff i : Nat) : Nat := le32At data (dirOff + 32*i)

/-- `size_on_disk` field of the `i`-th directory record. -/
def wadRecSize (data : List Nat) (dirOff i : Nat) : Nat := le32At data (dirOff + 32*i + 4)

/-- `type` field of the `i`-th directory record, as stored. -/
def wadRecType (data : List Nat) (dirOff i : Nat) : Int :=
  (byteAt data (dirOff + 32*i + 12) : Int)

/-- Decoded name of the `i`-th directory record. -/
def wadRecName (data : List Nat) (dirOff i : Nat) : String :=
  decodeName (listSlice data (dirOff + 32*i + 16) 16)

/-- Payload stored for the `i`-th directory record. -/
def wadRecPayload (data : List Nat) (dirOff i : Nat) : List Nat :=
  listSlice data (wadRecOffset data dirOff i) (wadRecSize data dirOff i)

/-- The pure content of the WAD2 directory loop once no read can fail. -/
def wadFold (data : List Nat) : Nat → Nat → List (String × Int × List Nat) →
    List (String × Int × List Nat)
  | 0, _, acc => acc
  | k+1, eo, acc =>
    wadFold data k (eo + 32)
      (dictInsert (decodeName (listSlice data (eo+16) 16))
        ((byteAt data (eo+12) : Int), listSlice data (le32At data eo) (le32At data (eo+4)))
          acc)

/-- The `(type, payload)` of the last directory record among the first
`k` whose decoded name is `s`. -/
def wadLastEntry (data : List Nat) (dirOff : Nat) (s : String) : Nat →
    Option (Int × List Nat)
  | 0 => none
  | k+1 =>
    if wadRecName data dirOff k = s then
      some (wadRecType data dirOff k, wadRecPayload data dirOff k)
    else wadLastEntry data dirOff s k

/-- A 44-byte WAD2 container with one record named `x` whose
`lump_offset = 40` and `size_on_disk = 100` point past the end of the
buffer. -/
def wadTruncPayload : List Nat :=
  wadMagic ++ [1, 0, 0, 0] ++ [12, 0, 0, 0] ++
    ([40, 0, 0, 0] ++ [100, 0, 0, 0] ++ [100, 0, 0, 0] ++ [66, 0, 0, 0] ++
      [120] ++ List.replicate 15 0)

/-- A 44-byte WAD2 container with one record named `x` whose type and
compression bytes are both 0xFF. -/
def wadTypeFF : List Nat :=
  wadMagic ++ [1, 0, 0, 0] ++ [12, 0, 0, 0] ++
    ([0, 0, 0, 0] ++ [0, 0, 0, 0] ++ [0, 0, 0, 0] ++ [255, 255, 0, 0] ++
      [120] ++ List.replicate 15 0)

/-- A 256-entry colour table used by the concrete batch example. -/
def examplePalette : List RGBA := List.replicate 256 (7, 7, 7, 255)

/-- Five records: three decodable bitmap (QPIC) records and two
non-bitmap records, listed out of name order. -/
def exampleLumps : List (String × Int × List Nat) :=
  [("e", TYP_QPIC, [2, 0, 0, 0, 1, 0, 0, 0, 1, 2]),
   ("b", 68, []),
   ("a", TYP_QPIC, [1, 0, 0, 0, 1, 0, 0, 0, 5]),
   ("d", 69, [1, 2, 3]),
   ("c", TYP_QPIC, [1, 0, 0, 0, 1, 0, 0, 0, 0])]

/-- The three image files the example batch writes, in name order. -/
def exampleOutputs : List (String × QImage) :=
  [("a.png", ⟨1, 1, [(7, 7, 7, 255)]⟩), ("c.png", ⟨1, 1, [(7, 7, 7, 255)]⟩),
   ("e.png", ⟨2, 1, [(7, 7, 7, 255), (7, 7, 7, 255)]⟩)]

/-- The output directory modelled as a map from file name to written
image. -/
def FileState : Type := String → Option QImage

/-- `img.save(out_path)`: writes (or overwrites) one file. -/
def writeFile (fs : FileState) (name : String) (img : QImage) : FileState :=
  fun k => if k = name then some img else fs k

/-- Writing a run's output files in order. -/
def writeAll (outs : List (String × QImage)) (fs : FileState) : FileState :=
  match outs with
  | [] => fs
  | (name, img) :: rest => writeAll rest (writeFile fs name img)

/-- The image most recently written under name `s` in `outs`, if any. -/
def lookupLast (outs : List (String × QImage)) (s : String) : Option QImage :=
  match outs with
  | [] => none
  | (name, img) :: rest =>
    match lookupLast rest s with
    | some i => some i
    | none => if s = name then some img else none

/-- The files a run of the orchestrator writes (none when it aborts). -/
def outputsOf (pakBytes : List Nat) : List (String × QImage) :=
  match mainRun pakBytes with
  | .ok r => r.outputs
  | .error _ => []

/-- One whole run applied to an output directory. -/
def applyRun (pakBytes : List Nat) (fs : FileState) : FileState :=
  writeAll (outputsOf pakBytes) fs

theorem listSlice_length (data : List Nat) (start len : Nat) :
    (listSlice data start len).length = min len (data.length - start) := by
  simp [listSlice]

theorem listSlice_getElem? (data : List Nat) (start len k : Nat) (hk : k < len) :
    (listSlice data start len)[k]? = data[start + k]? := by
  simp [listSlice, List.getElem?_take, hk, List.getElem?_drop]

theorem mem_listSlice (data : List Nat) (start len : Nat) (b : Nat)
    (hb : b ∈ listSlice data start len) : b ∈ data :=
  List.mem_of_mem_drop (List.mem_of_mem_take hb)

theorem mem_keys_dictInsert {α : Type} (k s : String) (v : α) (d : List (String × α)) :
    s ∈ (dictInsert k v d).map Prod.fst ↔ s = k ∨ s ∈ d.map Prod.fst := by
  induction d with
  | nil => simp [dictInsert]
  | cons e rest ih =>
    obtain ⟨k₀, v₀⟩ := e
    by_cases h : k₀ = k
    · subst h
      have hd : dictInsert k₀ v ((k₀, v₀) :: rest) = (k₀, v) :: rest := by
        simp [dictInsert]
      rw [hd]
      simp only [List.map_cons, List.mem_cons]
      tauto
    · simp only [dictInsert, if_neg h, List.map_cons, List.mem_cons, ih]
      tauto

theorem nodup_keys_dictInsert {α : Type} (k : String) (v : α) (d : List (String × α))
    (h : (d.map Prod.fst).Nodup) : ((dictInsert k v d).map Prod.fst).Nodup := by
  induction d with
  | nil => simp [dictInsert]
  | cons e rest ih =>
    obtain ⟨k₀, v₀⟩ := e
    simp only [List.map_cons, List.nodup_cons] at h
    by_cases hk : k₀ = k
    · subst hk
      simpa [dictInsert] using h
    · simp only [dictInsert, if_neg hk, List.map_cons, List.nodup_cons]
      refine ⟨fun hmem => ?_, ih h.2⟩
      rcases (mem_keys_dictInsert k k₀ v rest).mp hmem with h1 | h1
      · exact hk h1
      · exact h.1 h1

theorem lookup_dictInsert {α : Type} (s k : String) (v : α) (d : List (String × α)) :
    List.lookup s (dictInsert k v d) = if s = k then some v else List.lookup s d := by
  induction d with
  | nil =>
    by_cases h : s = k
    · simp [dictInsert, List.lookup, h]
    · have hb : (s == k) = false := beq_eq_false_iff_ne.mpr h
      simp [dictInsert, List.lookup, hb, h]
  | cons e rest ih =>
    obtain ⟨k₀, v₀⟩ := e
    by_cases hk : k₀ = k
    · subst hk
      by_cases hs : s = k₀
      · simp [dictInsert, List.lookup, hs]
      · have hb : (s == k₀) = false := beq_eq_false_iff_ne.mpr hs
        simp [dictInsert, List.lookup, hb, hs]
    · by_cases hs : s = k₀
      · have hsk : ¬ s = k := fun hh => hk (hs.symm.trans hh)
        have hb : (s == k₀) = true := beq_iff_eq.mpr hs
        simp [dictInsert, if_neg hk, List.lookup, hb, if_neg hsk]
      · have hb : (s == k₀) = false := beq_eq_false_iff_ne.mpr hs
        simp [dictInsert, if_neg hk, List.lookup, hb, ih]

theorem mem_dictInsert {α : Type} (e : String × α) (k : String) (v : α)
    (d : List (String × α)) (h : e ∈ dictInsert k v d) : e = (k, v) ∨ e ∈ d := by
  induction d with
  | nil => simpa [dictInsert] using h
  | cons e₀ rest ih =>
    obtain ⟨k₀, v₀⟩ := e₀
    by_cases hk : k₀ = k
    · subst hk
      rcases (by simpa [dictInsert] using h : e = (k₀, v) ∨ e ∈ rest) with h1 | h1 <;> tauto
    · rcases (by simpa [dictInsert, if_neg hk] using h :
          e = (k₀, v₀) ∨ e ∈ dictInsert k v rest) with h1 | h1
      · right; simp [h1]
      · rcases ih h1 with h2 | h2 <;> tauto

theorem pakLoop_eq_fold (data : List Nat) :
    ∀ (k pos : Nat) (acc : List (String × List Nat)), pos + 64*k ≤ data.length →
      pakLoop data k pos acc = .ok (pakFold data k pos acc) := by
  intro k
  induction k with
  | zero => intro pos acc _; rfl
  | succ k ih =>
    intro pos acc h
    have h56 : pos + 56 ≤ data.length := by omega
    have hmin : min (pos + 56) data.length = pos + 56 := Nat.min_eq_left h56
    have h64 : pos + 56 + 8 ≤ data.length := by omega
    have harith : pos + 56 + 4 = pos + 60 := by omega
    have harith2 : pos + 56 + 8 = pos + 64 := by omega
    simp only [pakLoop, pakFold, hmin, if_pos h64, harith, harith2]
    exact ih (pos + 64) _ (by omega)

theorem pakRecName_shift (data : List Nat) (pos i : Nat) :
    pakRecName data (pos + 64) i = pakRecName data pos (i+1) := by
  have h : pos + 64 + 64*i = pos + 64*(i+1) := by ring
  simp [pakRecName, h]

theorem pakRecPayload_shift (data : List Nat) (pos i : Nat) :
    pakRecPayload data (pos + 64) i = pakRecPayload data pos (i+1) := by
  have h1 : pos + 64 + 64*i + 56 = pos + 64*(i+1) + 56 := by ring
  have h2 : pos + 64 + 64*i + 60 = pos + 64*(i+1) + 60 := by ring
  simp [pakRecPayload, pakRecOffset, pakRecSize, h1, h2]

theorem pakLastPayload_shift (data : List Nat) (pos : Nat) (s : String) :
    ∀ k, pakLastPayload data pos s (k+1) =
      match pakLastPayload data (pos + 64) s k with
      | some v => some v
      | none =>
        if pakRecName data pos 0 = s then some (pakRecPayload data pos 0) else none := by
  intro k
  induction k with
  | zero => simp [pakLastPayload]
  | succ k ih =>
    by_cases h : pakRecName data pos (k+1) = s
    · have h2 : pakRecName data (pos + 64) k = s := by rw [pakRecName_shift]; exact h
      simp [pakLastPayload, h, h2, pakRecPayload_shift]
    · have h2 : ¬ pakRecName data (pos + 64) k = s := by rw [pakRecName_shift]; exact h
      calc pakLastPayload data pos s (k+1+1)
          = pakLastPayload data pos s (k+1) := by simp [pakLastPayload, h]
        _ = _ := by rw [ih]; simp [pakLastPayload, h2]

theorem lookup_pakFold (data : List Nat) (s : String) :
    ∀ (k pos : Nat) (acc : List (String × List Nat)),
      List.lookup s (pakFold data k pos acc) =
        match pakLastPayload data pos s k with
        | some v => some v
        | none => List.lookup s acc := by
  intro k
  induction k with
  | zero => intro pos acc; rfl
  | succ k ih =>
    intro pos acc
    have step : pakFold data (k+1) pos acc =
        pakFold data k (pos + 64)
          (dictInsert (pakRecName data pos 0) (pakRecPayload data pos 0) acc) := by
      simp [pakFold, pakRecName, pakRecPayload, pakRecOffset, pakRecSize]
    rw [step, ih, pakLastPayload_shift, lookup_dictInsert]
    cases hv : pakLastPayload data (pos + 64) s k with
    | some v => rfl
    | none =>
      by_cases hs : s = pakRecName data pos 0
      · simp [hs]
      · have hs2 : ¬ pakRecName data pos 0 = s := fun hh => hs hh.symm
        simp [hs, hs2]

theorem nodup_keys_pakFold (data : List Nat) :
    ∀ (k pos : Nat) (acc : List (String × List Nat)),
      (acc.map Prod.fst).Nodup → ((pakFold data k pos acc).map Prod.fst).Nodup := by
  intro k
  induction k with
  | zero => intro pos acc h; exact h
  | succ k ih =>
    intro pos acc h
    exact ih (pos + 64) _ (nodup_keys_dictInsert _ _ _ h)

theorem pakLastPayload_isSome (data : List Nat) (dirOff : Nat) (s : String) :
    ∀ k, (pakLastPayload data dirOff s k).isSome ↔
      ∃ i < k, pakRecName data dirOff i = s := by
  intro k
  induction k with
  | zero => simp [pakLastPayload]
  | succ k ih =>
    by_cases h : pakRecName data dirOff k = s
    · simp only [pakLastPayload, if_pos h, Option.isSome_some, true_iff]
      exact ⟨k, Nat.lt_succ_self k, h⟩
    · simp only [pakLastPayload, if_neg h, ih]
      constructor
      · rintro ⟨i, hi, hn⟩; exact ⟨i, Nat.lt_succ_of_lt hi, hn⟩
      · rintro ⟨i, hi, hn⟩
        refine ⟨i, ?_, hn⟩
        rcases Nat.lt_succ_iff_lt_or_eq.mp hi with h1 | h1
        · exact h1
        · subst h1; exact absurd hn h

/-- C1: for every well-formed outer archive (magic `PACK`, readable
12-byte header, `dir_size/64` directory records inside the file, payloads
in range), `readPak` succeeds with a mapping that has exactly one entry
per distinct lowercase record name (keys are nodup, and a key is present
iff some record decodes to it); looking a name up returns the payload of
the last directory record carrying that name, and each record payload is
byte-for-byte the `size` bytes starting at the record `offset`. -/
theorem outer_reader_correct (data : List Nat)
    (hmagic : listSlice data 0 4 = pakMagic)
    (hlen : 12 ≤ data.length)
    (hdir : le32At data 4 + 64 * (le32At data 8 / 64) ≤ data.length)
    (hpay : ∀ i < le32At data 8 / 64,
      pakRecOffset data (le32At data 4) i + pakRecSize data (le32At data 4) i ≤
        data.length) :
    ∃ d, readPak data = .ok d ∧
      (d.map Prod.fst).Nodup ∧
      (∀ s, List.lookup s d = pakLastPayload data (le32At data 4) s (le32At data 8 / 64)) ∧
      (∀ s, (List.lookup s d).isSome ↔
        ∃ i < le32At data 8 / 64, pakRecName data (le32At data 4) i = s) ∧
      (∀ i < le32At data 8 / 64,
        (pakRecPayload data (le32At data 4) i).length = pakRecSize data (le32At data 4) i) := by
  have hread : readPak data = pakLoop data (le32At data 8 / 64) (le32At data 4) [] := by
    simp [readPak, hmagic, hlen]
  have hloop := pakLoop_eq_fold data (le32At data 8 / 64) (le32At data 4) [] (by omega)
  have hlook : ∀ s, List.lookup s (pakFold data (le32At data 8 / 64) (le32At data 4) []) =
      pakLastPayload data (le32At data 4) s (le32At data 8 / 64) := by
    intro s
    rw [lookup_pakFold]
    cases pakLastPayload data (le32At data 4) s (le32At data 8 / 64) <;> rfl
  refine ⟨_, by rw [hread, hloop], nodup_keys_pakFold data _ _ [] (by simp), hlook, ?_, ?_⟩
  · intro s
    rw [hlook s, pakLastPayload_isSome]
  · intro i hi
    have h := hpay i hi
    simp only [pakRecPayload, listSlice_length]
    omega

/-- Witness for C1: on `pakExample` the reader succeeds, the keys are
distinct, and the duplicate name `a` maps to the later record's payload
`[9]`. -/
theorem outer_reader_correct_witness :
    ∃ d, readPak pakExample = .ok d ∧ (d.map Prod.fst).Nodup ∧
      List.lookup "a" d = some [9] := by
  obtain ⟨d, hd, hnodup, hlook, _, _⟩ :=
    outer_reader_correct pakExample (by decide) (by decide) (by decide) (by decide)
  refine ⟨d, hd, hnodup, ?_⟩
  rw [hlook]
  decide

/-- C6 counterexample: the claim says a directory size that is not a
multiple of 64 makes the reader fail, but on `pakOddSize`
(directory size 1) `readPak` succeeds. -/
theorem pak_dirsize_not_multiple_accepted :
    readPak pakOddSize = .ok [] ∧ le32At pakOddSize 8 % 64 ≠ 0 := by
  exact ⟨by decide, by decide⟩

/-- C6 amended: the reader never rejects a directory size that is not a
multiple of 64; the entry count is `dir_size / 64` rounded down, and the
read succeeds whenever the magic, the header and those
⌊`dir_size`/64⌋ records are in range, whatever `dir_size % 64` is. -/
theorem pak_entry_count_floor (data : List Nat)
    (hmagic : listSlice data 0 4 = pakMagic)
    (hlen : 12 ≤ data.length)
    (hdir : le32At data 4 + 64 * (le32At data 8 / 64) ≤ data.length) :
    ∃ d, readPak data = .ok d ∧
      ∀ s, List.lookup s d = pakLastPayload data (le32At data 4) s (le32At data 8 / 64) := by
  have hread : readPak data = pakLoop data (le32At data 8 / 64) (le32At data 4) [] := by
    simp [readPak, hmagic, hlen]
  have hloop := pakLoop_eq_fold data (le32At data 8 / 64) (le32At data 4) [] (by omega)
  refine ⟨_, by rw [hread, hloop], ?_⟩
  intro s
  rw [lookup_pakFold]
  cases pakLastPayload data (le32At data 4) s (le32At data 8 / 64) <;> rfl

/-- Witness for the amended C6: directory size 65 is not a multiple of
64, yet the read succeeds and the single record is returned. -/
theorem pak_entry_count_floor_witness :
    le32At pakOddSize65 8 % 64 ≠ 0 ∧
    ∃ d, readPak pakOddSize65 = .ok d ∧ List.lookup "a" d = some [80, 65, 67, 75] := by
  refine ⟨by decide, ?_⟩
  obtain ⟨d, hd, hlook⟩ :=
    pak_entry_count_floor pakOddSize65 (by decide) (by decide) (by decide)
  exact ⟨d, hd, by rw [hlook]; decide⟩

/-- C7: on at least 768 bytes the loader produces exactly 256 entries,
entry `i` being the RGB triplet at offset `3i` with alpha 0 at index 255
and 255 elsewhere; on fewer than 768 bytes it fails. -/
theorem palette_loader_correct :
    (∀ data : List Nat, 768 ≤ data.length →
      ∃ p, readPalette data = .ok p ∧ p.length = 256 ∧
        ∀ i, i < 256 → p[i]? = some (byteAt data (i*3), byteAt data (i*3+1),
          byteAt data (i*3+2), if i = 255 then 0 else 255)) ∧
    (∀ data : List Nat, data.length < 768 → readPalette data = .error .tooSmall) := by
  constructor
  · intro data h
    have hnot : ¬ data.length < 768 := by omega
    refine ⟨(List.range 256).map (fun i => (byteAt data (i*3), byteAt data (i*3+1),
      byteAt data (i*3+2), if i = 255 then 0 else 255)), ?_, by simp, ?_⟩
    · simp [readPalette, hnot]
    · intro i hi
      rw [List.getElem?_map, List.getElem?_range hi]
      rfl
  · intro data h
    simp [readPalette, h]

/-- Witness for C7: on `palBytes` the loader yields 256 entries with
entry 0 opaque and entry 255 transparent; one byte fewer fails. -/
theorem palette_loader_correct_witness :
    (∃ p, readPalette palBytes = .ok p ∧ p.length = 256 ∧
      p[0]? = some (3, 3, 3, 255) ∧ p[255]? = some (3, 3, 3, 0)) ∧
    readPalette (List.replicate 767 3) = .error .tooSmall := by
  constructor
  · obtain ⟨p, hp, hlen, hget⟩ := palette_loader_correct.1 palBytes (by decide)
    exact ⟨p, hp, hlen, by rw [hget 0 (by decide)]; decide,
      by rw [hget 255 (by decide)]; decide⟩
  · exact palette_loader_correct.2 _ (by decide)

theorem lookupPixels_ok (palette : List RGBA) (hpal : palette.length = 256) :
    ∀ l : List Nat, (∀ b ∈ l, b < 256) →
      ∃ colors, lookupPixels palette l = some colors ∧
        colors.length = l.length ∧
        ∀ k : Nat, colors[k]? = (l[k]?).bind (fun b => palette[b]?) := by
  intro l
  induction l with
  | nil => exact fun _ => ⟨[], rfl, rfl, fun k => by cases k <;> rfl⟩
  | cons b rest ih =>
    intro h
    have hb : b < palette.length := by
      rw [hpal]; exact h b (List.mem_cons_self b rest)
    have hc : palette[b]? = some palette[b] := List.getElem?_eq_getElem hb
    obtain ⟨colors, hcolors, hlen, hidx⟩ := ih (fun x hx => h x (List.mem_cons_of_mem b hx))
    refine ⟨palette[b] :: colors, ?_, by simp [hlen], ?_⟩
    · simp [lookupPixels, hc, hcolors]
    · intro k
      cases k with
      | zero => simp [hc]
      | succ k => simpa using hidx k

/-- C2: on a payload of at least 8 bytes whose declared `width*height`
fits in the bytes after the 8-byte header, with a full 256-entry colour
table, the decoder succeeds with a `width`-by-`height` raster whose
pixel `k` is the colour-table entry at index `payload[8+k]`. -/
theorem qpic_decoder_correct (data : List Nat) (palette : List RGBA)
    (hlen : 8 ≤ data.length)
    (hpal : palette.length = 256)
    (hbytes : ∀ b ∈ data, b < 256)
    (hwh : le32At data 0 * le32At data 4 ≤ data.length - 8) :
    ∃ img, qpicToImage data palette = .ok img ∧
      img.width = le32At data 0 ∧ img.height = le32At data 4 ∧
      img.pixels.length = le32At data 0 * le32At data 4 ∧
      ∀ k, k < le32At data 0 * le32At data 4 →
        img.pixels[k]? = (data[8+k]?).bind (fun b => palette[b]?) := by
  have hplen : (listSlice data 8 (le32At data 0 * le32At data 4)).length =
      le32At data 0 * le32At data 4 := by
    rw [listSlice_length]; omega
  have hmem : ∀ b ∈ listSlice data 8 (le32At data 0 * le32At data 4), b < 256 :=
    fun b hb => hbytes b (mem_listSlice _ _ _ b hb)
  obtain ⟨colors, hcolors, hclen, hidx⟩ := lookupPixels_ok palette hpal _ hmem
  refine ⟨⟨le32At data 0, le32At data 4, colors⟩, ?_, rfl, rfl, by rw [hclen, hplen], ?_⟩
  · simp only [qpicToImage, if_pos hlen]
    rw [if_neg (by omega : ¬ (listSlice data 8 (le32At data 0 * le32At data 4)).length <
      le32At data 0 * le32At data 4), hcolors]
  · intro k hk
    rw [hidx k, listSlice_getElem? data 8 (le32At data 0 * le32At data 4) k hk]

/-- Witness for C2: the concrete 2×1 example decodes to the raster
`[(255,0,0,255), (0,0,0,0)]`, via the general theorem. -/
theorem qpic_decoder_correct_witness :
    qpicToImage qpicExample palExample = .ok ⟨2, 1, [(255, 0, 0, 255), (0, 0, 0, 0)]⟩ ∧
    ∃ img, qpicToImage qpicExample palExample = .ok img ∧
      img.width = le32At qpicExample 0 ∧ img.height = le32At qpicExample 4 ∧
      img.pixels.length = le32At qpicExample 0 * le32At qpicExample 4 := by
  refine ⟨by decide, ?_⟩
  obtain ⟨img, h1, h2, h3, h4, _⟩ := qpic_decoder_correct qpicExample palExample
    (by decide) (by decide) (by decide) (by decide)
  exact ⟨img, h1, h2, h3, h4⟩

/-- C3: on a payload of at least 8 bytes the decoder fails with the
truncation error exactly when `width*height` exceeds the bytes after the
8-byte header; the failure only skips that one record in the batch loop
and leaves the rest of the batch unchanged. -/
theorem qpic_truncation_iff (data : List Nat) (palette : List RGBA)
    (hlen : 8 ≤ data.length) :
    (qpicToImage data palette = .error .truncated ↔
      data.length - 8 < le32At data 0 * le32At data 4) ∧
    (∀ (name : String) (rest : List (String × Int × List Nat)),
      data.length - 8 < le32At data 0 * le32At data 4 →
      processLumps palette ((name, TYP_QPIC, data) :: rest) =
        ⟨(processLumps palette rest).written, (processLumps palette rest).skipped + 1,
          (processLumps palette rest).outputs⟩) := by
  have hiff : qpicToImage data palette = .error .truncated ↔
      data.length - 8 < le32At data 0 * le32At data 4 := by
    by_cases hc : data.length - 8 < le32At data 0 * le32At data 4
    · have hlt : (listSlice data 8 (le32At data 0 * le32At data 4)).length <
          le32At data 0 * le32At data 4 := by
        rw [listSlice_length]; omega
      simp only [qpicToImage, if_pos hlen]
      simp [hlt, hc]
    · have hlt : ¬ (listSlice data 8 (le32At data 0 * le32At data 4)).length <
          le32At data 0 * le32At data 4 := by
        rw [listSlice_length]; omega
      simp only [qpicToImage, if_pos hlen, if_neg hlt]
      cases hm : lookupPixels palette (listSlice data 8 (le32At data 0 * le32At data 4)) with
      | some colors => simp [hc]
      | none => simp [hc]
  refine ⟨hiff, ?_⟩
  intro name rest hc
  have herr : qpicToImage data palette = .error .truncated := hiff.mpr hc
  simp [processLumps, herr]

/-- Witness for C3: the truncated record fails to decode, and in a batch
it is merely counted as skipped. -/
theorem qpic_truncation_iff_witness :
    qpicToImage qpicTruncated [] = .error .truncated ∧
    processLumps [] [("w", TYP_QPIC, qpicTruncated)] = ⟨0, 1, []⟩ := by
  refine ⟨(qpic_truncation_iff qpicTruncated [] (by decide)).1.mpr (by decide), ?_⟩
  have h := (qpic_truncation_iff qpicTruncated [] (by decide)).2 "w" [] (by decide)
  simpa using h

/-- C8: with a full 256-entry colour table and byte-valued pixel data,
the per-pixel colour-table lookup of the decoder never fails: the
decoder never returns the lookup-failure outcome. -/
theorem qpic_lookup_in_bounds (data : List Nat) (palette : List RGBA)
    (hpal : palette.length = 256) (hbytes : ∀ b ∈ data, b < 256) :
    qpicToImage data palette ≠ .error .lookupFailed := by
  by_cases hlen : 8 ≤ data.length
  · obtain ⟨colors, hcolors, _, _⟩ := lookupPixels_ok palette hpal
      (listSlice data 8 (le32At data 0 * le32At data 4))
      (fun b hb => hbytes b (mem_listSlice _ _ _ b hb))
    simp only [qpicToImage, if_pos hlen]
    by_cases hc : (listSlice data 8 (le32At data 0 * le32At data 4)).length <
        le32At data 0 * le32At data 4
    · simp [hc]
    · simp [hc, hcolors]
  · simp [qpicToImage, hlen]

/-- Witness for C8: a concrete record whose pixel indices are 7 and 8,
decoded against a full 256-entry table, does not hit a lookup failure. -/
theorem qpic_lookup_in_bounds_witness :
    (List.replicate 256 ((0, 0, 0, 255) : RGBA)).length = 256 ∧
    qpicToImage [2, 0, 0, 0, 1, 0, 0, 0, 7, 8] (List.replicate 256 (0, 0, 0, 255)) ≠
      .error .lookupFailed := by
  exact ⟨by decide, qpic_lookup_in_bounds _ _ (by decide) (by decide)⟩

theorem wadLoop_eq_fold (data : List Nat) :
    ∀ (k eo : Nat) (acc : List (String × Int × List Nat)), eo + 32*k ≤ data.length →
      wadLoop data k eo acc = .ok (wadFold data k eo acc) := by
  intro k
  induction k with
  | zero => intro eo acc _; rfl
  | succ k ih =>
    intro eo acc h
    have h14 : eo + 14 ≤ data.length := by omega
    simp only [wadLoop, wadFold, parseWadRecord, if_pos h14]
    exact ih (eo + 32) _ (by omega)

theorem wadRecName_shift (data : List Nat) (eo i : Nat) :
    wadRecName data (eo + 32) i = wadRecName data eo (i+1) := by
  have h : eo + 32 + 32*i + 16 = eo + 32*(i+1) + 16 := by ring
  simp [wadRecName, h]

theorem wadRecType_shift (data : List Nat) (eo i : Nat) :
    wadRecType data (eo + 32) i = wadRecType data eo (i+1) := by
  have h : eo + 32 + 32*i + 12 = eo + 32*(i+1) + 12 := by ring
  simp [wadRecType, h]

theorem wadRecPayload_shift (data : List Nat) (eo i : Nat) :
    wadRecPayload data (eo + 32) i = wadRecPayload data eo (i+1) := by
  have h1 : eo + 32 + 32*i = eo + 32*(i+1) := by ring
  have h2 : eo + 32 + 32*i + 4 = eo + 32*(i+1) + 4 := by ring
  simp [wadRecPayload, wadRecOffset, wadRecSize, h1, h2]

theorem wadLastEntry_shift (data : List Nat) (eo : Nat) (s : String) :
    ∀ k, wadLastEntry data eo s (k+1) =
      match wadLastEntry data (eo + 32) s k with
      | some v => some v
      | none =>
        if wadRecName data eo 0 = s then
          some (wadRecType data eo 0, wadRecPayload data eo 0)
        else none := by
  intro k
  induction k with
  | zero => simp [wadLastEntry]
  | succ k ih =>
    by_cases h : wadRecName data eo (k+1) = s
    · have h2 : wadRecName data (eo + 32) k = s := by rw [wadRecName_shift]; exact h
      simp [wadLastEntry, h, h2, wadRecPayload_shift, wadRecType_shift]
    · have h2 : ¬ wadRecName data (eo + 32) k = s := by rw [wadRecName_shift]; exact h
      calc wadLastEntry data eo s (k+1+1)
          = wadLastEntry data eo s (k+1) := by simp [wadLastEntry, h]
        _ = _ := by rw [ih]; simp [wadLastEntry, h2]

theorem lookup_wadFold (data : List Nat) (s : String) :
    ∀ (k eo : Nat) (acc : List (String × Int × List Nat)),
      List.lookup s (wadFold data k eo acc) =
        match wadLastEntry data eo s k with
        | some v => some v
        | none => List.lookup s acc := by
  intro k
  induction k with
  | zero => intro eo acc; rfl
  | succ k ih =>
    intro eo acc
    have step : wadFold data (k+1) eo acc =
        wadFold data k (eo + 32)
          (dictInsert (wadRecName data eo 0)
            (wadRecType data eo 0, wadRecPayload data eo 0) acc) := by
      simp [wadFold, wadRecName, wadRecType, wadRecPayload, wadRecOffset, wadRecSize]
    rw [step, ih, wadLastEntry_shift, lookup_dictInsert]
    cases hv : wadLastEntry data (eo + 32) s k with
    | some v => rfl
    | none =>
      by_cases hs : s = wadRecName data eo 0
      · simp [hs]
      · have hs2 : ¬ wadRecName data eo 0 = s := fun hh => hs hh.symm
        simp [hs, hs2]

/-- C10: on a buffer with the `WAD2` magic, a readable header and all
32-byte directory records inside the buffer, parsing succeeds for any
`lump_offset`/`size_on_disk` values; the stored payload is the silently
truncated slice, of length `min size_on_disk (length - lump_offset)`,
possibly shorter than `size_on_disk` and possibly empty. -/
theorem nested_reader_total (data : List Nat)
    (hmagic : listSlice data 0 4 = wadMagic)
    (hlen : 12 ≤ data.length)
    (hdir : le32At data 8 + 32 * le32At data 4 ≤ data.length) :
    ∃ lumps, readWad data = .ok lumps ∧
      (∀ s, List.lookup s lumps = wadLastEntry data (le32At data 8) s (le32At data 4)) ∧
      (∀ i < le32At data 4, (wadRecPayload data (le32At data 8) i).length =
        min (wadRecSize data (le32At data 8) i)
          (data.length - wadRecOffset data (le32At data 8) i)) := by
  have hread : readWad data = wadLoop data (le32At data 4) (le32At data 8) [] := by
    simp [readWad, hmagic, hlen]
  have hloop := wadLoop_eq_fold data (le32At data 4) (le32At data 8) [] (by omega)
  refine ⟨_, by rw [hread, hloop], ?_, ?_⟩
  · intro s
    rw [lookup_wadFold]
    cases wadLastEntry data (le32At data 8) s (le32At data 4) <;> rfl
  · intro i _
    simp only [wadRecPayload, listSlice_length]

/-- Witness for C10: the record declares 100 payload bytes starting at
offset 40 of a 44-byte buffer, yet parsing succeeds and stores the 4
available bytes. -/
theorem nested_reader_total_witness :
    wadTruncPayload.length < wadRecOffset wadTruncPayload 12 0 +
      wadRecSize wadTruncPayload 12 0 ∧
    ∃ lumps, readWad wadTruncPayload = .ok lumps ∧
      List.lookup "x" lumps = some (66, [0, 0, 0, 0]) := by
  refine ⟨by decide, ?_⟩
  obtain ⟨lumps, hl, hlook, _⟩ :=
    nested_reader_total wadTruncPayload (by decide) (by decide) (by decide)
  exact ⟨lumps, hl, by rw [hlook]; decide⟩

theorem byteAt_lt (data : List Nat) (i : Nat) (hbytes : ∀ b ∈ data, b < 256) :
    byteAt data i < 256 := by
  by_cases h : i < data.length
  · have he : byteAt data i = data[i] := by
      simp [byteAt, List.getD, List.getElem?_eq_getElem h]
    rw [he]
    exact hbytes _ (List.getElem_mem h)
  · have he : byteAt data i = 0 := by
      simp [byteAt, List.getD, List.getElem?_eq_none (by omega : data.length ≤ i)]
    omega

theorem parseWadRecord_fields (data : List Nat) (eo : Nat) (r : WadRecord)
    (h : parseWadRecord data eo = some r) :
    r.lumpOffset = le32At data eo ∧ r.diskSize = le32At data (eo+4) ∧
      r.lumpType = (byteAt data (eo+12) : Int) ∧
      r.compression = toSigned8 (byteAt data (eo+13)) ∧
      r.nameRaw = listSlice data (eo+16) 16 := by
  by_cases hc : eo + 14 ≤ data.length
  · simp only [parseWadRecord, if_pos hc, Option.some.injEq] at h
    rw [← h]
    exact ⟨rfl, rfl, rfl, rfl, rfl⟩
  · simp [parseWadRecord, hc] at h

theorem wadLoop_types (data : List Nat) (hbytes : ∀ b ∈ data, b < 256) :
    ∀ (k eo : Nat) (acc : List (String × Int × List Nat))
      (lumps : List (String × Int × List Nat)),
      (∀ e ∈ acc, 0 ≤ e.2.1 ∧ e.2.1 < 256) →
      wadLoop data k eo acc = .ok lumps →
      ∀ e ∈ lumps, 0 ≤ e.2.1 ∧ e.2.1 < 256 := by
  intro k
  induction k with
  | zero =>
    intro eo acc lumps hacc hloop
    cases hloop
    exact hacc
  | succ k ih =>
    intro eo acc lumps hacc hloop
    cases hp : parseWadRecord data eo with
    | none => rw [wadLoop, hp] at hloop; cases hloop
    | some r =>
      rw [wadLoop, hp] at hloop
      refine ih (eo + 32) _ lumps ?_ hloop
      intro e he
      rcases mem_dictInsert e _ _ _ he with h1 | h1
      · obtain ⟨_, _, hty, _, _⟩ := parseWadRecord_fields data eo r hp
        have hb : byteAt data (eo+12) < 256 := byteAt_lt data (eo+12) hbytes
        subst h1
        simp only [hty]
        constructor
        · exact Int.ofNat_nonneg _
        · exact_mod_cast hb
      · exact hacc e h1

/-- C5 counterexample: the claim says a type byte ≥ 0x80 is parsed as a
negative signed value, but on `wadTypeFF` (type byte 0xFF) the stored
type is the nonnegative 255: the `"B"` format is unsigned. -/
theorem wad_type_byte_ff_nonnegative :
    byteAt wadTypeFF 24 = 255 ∧
    readWad wadTypeFF = .ok [("x", ((255 : Int), ([] : List Nat)))] ∧
    ¬ ((255 : Int) < 0) := by
  exact ⟨by decide, by decide, by decide⟩

/-- C5 amended: of the two packed byte fields only `compression` is
parsed as signed (`"b"`: a byte ≥ 0x80 becomes negative, a byte < 0x80
stays nonnegative), while `type` is parsed as unsigned (`"B"`): every
type stored by the nested reader lies in `[0, 256)`, never negative. -/
theorem wad_type_unsigned_compression_signed (data : List Nat)
    (hbytes : ∀ b ∈ data, b < 256) :
    (∀ lumps, readWad data = .ok lumps → ∀ e ∈ lumps, 0 ≤ e.2.1 ∧ e.2.1 < 256) ∧
    (∀ eo r, parseWadRecord data eo = some r →
      r.lumpType = (byteAt data (eo+12) : Int) ∧ 0 ≤ r.lumpType ∧
      (128 ≤ byteAt data (eo+13) → r.compression < 0) ∧
      (byteAt data (eo+13) < 128 → 0 ≤ r.compression)) := by
  constructor
  · intro lumps hread
    by_cases hm : listSlice data 0 4 = wadMagic
    · by_cases hl : 12 ≤ data.length
      · have hloop : wadLoop data (le32At data 4) (le32At data 8) [] = .ok lumps := by
          simpa [readWad, hm, hl] using hread
        exact wadLoop_types data hbytes _ _ [] lumps (by simp) hloop
      · simp [readWad, hm, hl] at hread
    · simp [readWad, hm] at hread
  · intro eo r hp
    obtain ⟨_, _, hty, hcomp, _⟩ := parseWadRecord_fields data eo r hp
    have hb13 : byteAt data (eo+13) < 256 := byteAt_lt data (eo+13) hbytes
    refine ⟨hty, by rw [hty]; exact Int.ofNat_nonneg _, ?_, ?_⟩
    · intro hge
      rw [hcomp, toSigned8, if_neg (by omega)]
      have : (byteAt data (eo+13) : Int) < 256 := by exact_mod_cast hb13
      omega
    · intro hlt
      rw [hcomp, toSigned8, if_pos hlt]
      exact Int.ofNat_nonneg _

/-- Witness for the amended C5: on `wadTypeFF` (all bytes in range) the
single stored entry has a nonnegative type below 256, and the parsed
record at entry offset 12 has type 255 and compression −1. -/
theorem wad_type_unsigned_compression_signed_witness :
    (∀ e ∈ [("x", ((255 : Int), ([] : List Nat)))], 0 ≤ e.2.1 ∧ e.2.1 < 256) ∧
    ∃ r, parseWadRecord wadTypeFF 12 = some r ∧ r.lumpType = 255 ∧
      r.compression < 0 := by
  constructor
  · exact (wad_type_unsigned_compression_signed wadTypeFF (by decide)).1 _ (by decide)
  · refine ⟨_, rfl, ?_, ?_⟩
    · decide
    · have h := ((wad_type_unsigned_compression_signed wadTypeFF (by decide)).2
        12 _ rfl).2.2.1 (by decide)
      exact h

theorem processLumps_spec (palette : List RGBA) :
    ∀ l : List (String × Int × List Nat),
      (processLumps palette l).outputs = l.filterMap (fun e =>
        if e.2.1 = TYP_QPIC then
          (qpicToImage e.2.2 palette).toOption.map (fun img => (e.1 ++ ".png", img))
        else none) ∧
      (processLumps palette l).written = (processLumps palette l).outputs.length ∧
      (processLumps palette l).written + (processLumps palette l).skipped = l.length := by
  intro l
  induction l with
  | nil => exact ⟨rfl, rfl, rfl⟩
  | cons e rest ih =>
    obtain ⟨name, ty, data⟩ := e
    obtain ⟨ho, hw, hc⟩ := ih
    by_cases hty : ty = TYP_QPIC
    · cases hq : qpicToImage data palette with
      | ok img =>
        have hstep : processLumps palette ((name, ty, data) :: rest) =
            ⟨(processLumps palette rest).written + 1, (processLumps palette rest).skipped,
              (name ++ ".png", img) :: (processLumps palette rest).outputs⟩ := by
          simp [processLumps, hty, hq]
        rw [hstep]
        refine ⟨?_, ?_, ?_⟩
        · simp [List.filterMap_cons, hty, hq, Except.toOption, ho]
        · simp [hw]
        · simp only [List.length_cons]
          omega
      | error err =>
        have hstep : processLumps palette ((name, ty, data) :: rest) =
            ⟨(processLumps palette rest).written, (processLumps palette rest).skipped + 1,
              (processLumps palette rest).outputs⟩ := by
          simp [processLumps, hty, hq]
        rw [hstep]
        refine ⟨?_, ?_, ?_⟩
        · simp [List.filterMap_cons, hty, hq, Except.toOption, ho]
        · simp [hw]
        · simp only [List.length_cons]
          omega
    · have hstep : processLumps palette ((name, ty, data) :: rest) =
          ⟨(processLumps palette rest).written, (processLumps palette rest).skipped + 1,
            (processLumps palette rest).outputs⟩ := by
        simp [processLumps, hty]
      rw [hstep]
      refine ⟨?_, ?_, ?_⟩
      · simp [List.filterMap_cons, hty, ho]
      · simp [hw]
      · simp only [List.length_cons]
        omega

theorem lexLe_total : ∀ (as bs : List Nat), lexLe as bs = true ∨ lexLe bs as = true := by
  intro as
  induction as with
  | nil => intro bs; left; rfl
  | cons a as ih =>
    intro bs
    cases bs with
    | nil => right; rfl
    | cons b bs =>
      rcases Nat.lt_trichotomy a b with h | h | h
      · left; simp [lexLe, h]
      · subst h
        rcases ih bs with h2 | h2
        · left; simp [lexLe, h2]
        · right; simp [lexLe, h2]
      · right; simp [lexLe, h]

theorem lexLe_trans : ∀ (as bs cs : List Nat), lexLe as bs = true → lexLe bs cs = true →
    lexLe as cs = true := by
  intro as
  induction as with
  | nil => intro bs cs _ _; rfl
  | cons a as ih =>
    intro bs cs h1 h2
    cases bs with
    | nil => simp [lexLe] at h1
    | cons b bs =>
      cases cs with
      | nil => simp [lexLe] at h2
      | cons c cs =>
        by_cases hab : a < b
        · by_cases hbc : b < c
          · simp [lexLe, show a < c by omega]
          · by_cases hcb : c < b
            · simp [lexLe, hbc, hcb] at h2
            · have hbceq : b = c := by omega
              subst hbceq
              simp [lexLe, hab]
        · by_cases hba : b < a
          · simp [lexLe, hab, hba] at h1
          · have habeq : a = b := by omega
            subst habeq
            by_cases hac : a < c
            · simp [lexLe, hac]
            · by_cases hca : c < a
              · simp [lexLe, hac, hca] at h2
              · have haceq : a = c := by omega
                subst haceq
                simp only [lexLe, if_neg (lt_irrefl a)] at h1 h2 ⊢
                exact ih bs cs h1 h2

/-- C4: the loop visits the records as a name-sorted permutation of the
parsed lumps; written plus skipped always equals the total number of
records; the outputs are exactly the QPIC-typed records whose decode
succeeds, each contributing its own `<name>.png` file — so a single
record's decode failure merely moves that record from written to
skipped, and a non-bitmap type is skipped without a decode attempt.
Concretely, three decodable bitmap records plus two non-bitmap records
give written = 3 and skipped = 2. -/
theorem orchestrator_loop_correct (palette : List RGBA)
    (lumps : List (String × Int × List Nat)) :
    (sortByName lumps).Perm lumps ∧
    List.Pairwise (fun a b => strLe a.1 b.1 = true) (sortByName lumps) ∧
    (processLumps palette (sortByName lumps)).written +
      (processLumps palette (sortByName lumps)).skipped = lumps.length ∧
    (processLumps palette (sortByName lumps)).outputs =
      (sortByName lumps).filterMap (fun e =>
        if e.2.1 = TYP_QPIC then
          (qpicToImage e.2.2 palette).toOption.map (fun img => (e.1 ++ ".png", img))
        else none) ∧
    (processLumps palette (sortByName lumps)).written =
      (processLumps palette (sortByName lumps)).outputs.length ∧
    processLumps examplePalette (sortByName exampleLumps) = ⟨3, 2, exampleOutputs⟩ := by
  haveI htot : IsTotal (String × Int × List Nat) (fun x y => strLe x.1 y.1 = true) :=
    ⟨fun a b => lexLe_total _ _⟩
  haveI htrans : IsTrans (String × Int × List Nat) (fun x y => strLe x.1 y.1 = true) :=
    ⟨fun a b c => lexLe_trans _ _ _⟩
  obtain ⟨ho, hw, hc⟩ := processLumps_spec palette (sortByName lumps)
  refine ⟨List.perm_insertionSort _ lumps, List.sorted_insertionSort _ lumps, ?_, ho, hw, ?_⟩
  · rw [hc]
    exact (List.perm_insertionSort _ lumps).length_eq
  · decide

theorem writeAll_apply (outs : List (String × QImage)) :
    ∀ (fs : FileState) (s : String), writeAll outs fs s =
      match lookupLast outs s with
      | some img => some img
      | none => fs s := by
  induction outs with
  | nil => intro fs s; rfl
  | cons e rest ih =>
    obtain ⟨name, img⟩ := e
    intro fs s
    rw [writeAll, ih]
    cases h : lookupLast rest s with
    | some i => simp [lookupLast, h]
    | none =>
      by_cases hs : s = name
      · subst hs
        simp [lookupLast, h, writeFile]
      · simp [lookupLast, h, writeFile, hs]

/-- C9: the orchestrator is a pure function of the archive bytes, so two
runs determine the same outputs and counts; writing a run's outputs into
the output directory overwrites per file name (the last write under a
name wins, regardless of what the directory previously held), and
running the whole process twice on the same archive and directory leaves
exactly the state of running it once. -/
theorem orchestrator_idempotent (pakBytes : List Nat) (fs : FileState) :
    applyRun pakBytes (applyRun pakBytes fs) = applyRun pakBytes fs ∧
    ∀ s, applyRun pakBytes fs s =
      match lookupLast (outputsOf pakBytes) s with
      | some img => some img
      | none => fs s := by
  constructor
  · funext s
    show writeAll (outputsOf pakBytes) (writeAll (outputsOf pakBytes) fs) s =
      writeAll (outputsOf pakBytes) fs s
    rw [writeAll_apply, writeAll_apply]
    cases h : lookupLast (outputsOf pakBytes) s <;> simp [h]
  · intro s
    exact writeAll_apply (outputsOf pakBytes) fs s
